import Mathlib

/-!
Shallow embedding of the `gemini` polynomial-commitment engine
(`src/kzg/time.rs`) and SNARK verifier orchestration
(`src/snark/verifier.rs`).

Scalars are modelled by a commutative ring / field `F`, group elements of
the two pairing source groups by modules `G1`, `G2` over `F`.  Machinery
that lives in the repository but outside the provided sources
(`src/misc.rs`, `src/kzg/mod.rs`, `src/lib.rs`, the sumcheck and
tensorcheck modules, the merlin transcript) is modelled from the spec and
marked as such in the corresponding doc comments.
-/

set_option linter.unusedSectionVars false
set_option linter.unusedVariables false

namespace Gemini

section Misc

variable {F : Type} [CommRing F]

/-- Modelled from the spec: `misc::powers` (file `src/misc.rs` is not part of
the provided sources).  Auxiliary accumulator-passing loop computing the
consecutive powers `acc, acc*t, acc*t^2, ...`. -/
def powersAux (t : F) : F → Nat → List F
  | _, 0 => []
  | acc, n + 1 => acc :: powersAux t (acc * t) n

/-- Modelled from the spec: `misc::powers(t, n)` returns the `n` consecutive
powers of `t` starting at `1` (spec §4.1: "compute its consecutive powers";
§4.1 batching: "consecutive powers of the given Fiat-Shamir challenge ...
starting at weight 1"). -/
def powers (t : F) (n : Nat) : List F :=
  powersAux t 1 n

/-- Modelled from the spec: `misc::evaluate_le`, evaluation of a coefficient
vector as a polynomial in little-endian coefficient order (spec §4.2 step 11:
"evaluate the public-input vector as a polynomial ... little-endian
coefficient order"). -/
def evaluate_le (p : List F) (x : F) : F :=
  p.foldr (fun c acc => c + x * acc) 0

/-- Modelled from the spec: `misc::ip`, the inner product of two scalar
vectors (spec §4.2 step 10). -/
def ip (v w : List F) : F :=
  (List.zipWith (· * ·) v w).sum

/-- Modelled from the spec: `misc::hadamard`, the entrywise product of two
vectors (spec glossary: "Hadamard product: entrywise multiplication of two
equal-length vectors"). -/
def hadamard (v w : List F) : List F :=
  List.zipWith (· * ·) v w

/-- Modelled from the spec: `misc::tensor`, expanding a short challenge
sequence into its full outer-product vector (spec glossary: "tensor
expansion"). -/
def tensor (cs : List F) : List F :=
  cs.foldr (fun c acc => acc ++ acc.map (c * ·)) [1]

/-- Modelled from the spec: `misc::product_matrix_vector`, the matrix-vector
product, a matrix being given as its list of rows (spec §6: each constraint
matrix is "applicable to a vector to produce a vector - i.e. matrix-vector
product"). -/
def product_matrix_vector (m : List (List F)) (v : List F) : List F :=
  m.map (fun row => ip row v)

/-- Coefficientwise sum of two little-endian coefficient vectors, the shorter
one implicitly zero-padded.  Helper for the polynomial arithmetic below. -/
def polyAdd : List F → List F → List F
  | [], q => q
  | p, [] => p
  | a :: p, b :: q => (a + b) :: polyAdd p q

/-- Modelled from the spec: `misc::linear_combination`, the coefficientwise
linear combination of a family of coefficient vectors with the given scalar
weights (spec §4.1: "form the weighted sum of the polynomials
(coefficientwise linear combination)"); pairs beyond the shorter of the two
lists are dropped. -/
def linear_combination : List (List F) → List F → List F
  | [], _ => []
  | _, [] => []
  | p :: ps, c :: cs => polyAdd (p.map (c * ·)) (linear_combination ps cs)

/-- Product of two little-endian coefficient vectors (polynomial product).
Helper for the vanishing polynomial below. -/
def polyMul : List F → List F → List F
  | [], _ => []
  | a :: p, q => polyAdd (q.map (a * ·)) (0 :: polyMul p q)

/-- Modelled from the spec: `kzg::vanishing_polynomial` (file
`src/kzg/mod.rs` is not part of the provided sources): the monic polynomial
whose roots are exactly the given points (spec glossary), in little-endian
coefficient order. -/
def vanishing_polynomial (pts : List F) : List F :=
  pts.foldl (fun acc p => polyMul acc [-p, 1]) [1]

end Misc

section Kzg

variable {F G1 G2 : Type} [CommRing F]

/-- `Commitment` (`src/kzg`): a binding digest of a polynomial, one group-1
element. -/
structure Commitment (G : Type) where
  val : G
  deriving DecidableEq

/-- `EvaluationProof` (`src/kzg`): an opening witness, one group-1 element. -/
structure EvaluationProof (G : Type) where
  val : G
  deriving DecidableEq

/-- Semantics of arkworks `VariableBaseMSM::msm_unchecked`: the multi-scalar
multiplication `Σ scalars[i] • bases[i]`, the two lists being zipped without
any length check (the longer list is silently truncated). -/
def msm_unchecked [AddCommMonoid G1] [SMul F G1] (bases : List G1) (scalars : List F) : G1 :=
  ((bases.zip scalars).map (fun bs => bs.2 • bs.1)).sum

/-- `CommitterKey` (`src/kzg/time.rs` lines 24-27): the SRS, holding the
powers of the trapdoor in group 1 and in group 2. -/
structure CommitterKey (G1 G2 : Type) where
  powers_of_g : List G1
  powers_of_g2 : List G2
  deriving DecidableEq

namespace CommitterKey

/-- `CommitterKey::new` (`src/kzg/time.rs` lines 49-72).  The sampling of the
trapdoor `tau` and of the two random generators `g`, `g2` is performed by the
caller's `rng`; here they are taken as parameters.  The arkworks fixed-base
MSM of the powers of `tau` against `g` is modelled by its semantics, the
scalar multiples `tau^i • g`.  Note the group-2 basis takes only the first
`max_eval_points + 1` entries of the `max_degree + 1` powers of `tau`. -/
def new [AddCommMonoid G1] [AddCommMonoid G2] [SMul F G1] [SMul F G2]
    (max_degree max_eval_points : Nat) (tau : F) (g : G1) (g2 : G2) :
    CommitterKey G1 G2 :=
  let powers_of_tau := powers tau (max_degree + 1)
  { powers_of_g := powers_of_tau.map (fun t => t • g)
    powers_of_g2 := (powers_of_tau.take (max_eval_points + 1)).map (fun t => t • g2) }

/-- `CommitterKey::max_eval_points` (`src/kzg/time.rs` lines 76-78). -/
def max_eval_points (ck : CommitterKey G1 G2) : Nat :=
  ck.powers_of_g2.length - 1

/-- `CommitterKey::commit` (`src/kzg/time.rs` lines 81-83): a single
unchecked MSM of the group-1 basis against the coefficient vector. -/
def commit [AddCommMonoid G1] [SMul F G1] (ck : CommitterKey G1 G2)
    (polynomial : List F) : Commitment G1 :=
  ⟨msm_unchecked ck.powers_of_g polynomial⟩

/-- The scatter loop of `CommitterKey::index_by` (`src/kzg/time.rs` lines
87-90): starting from an all-zero vector, each pair `(i, g)` accumulates `g`
into position `i`. -/
def scatterAdd [AddCommMonoid G1] (pairs : List (Nat × G1)) (init : List G1) : List G1 :=
  pairs.foldl (fun acc ig => acc.set ig.1 (acc.getD ig.1 0 + ig.2)) init

/-- `CommitterKey::index_by` (`src/kzg/time.rs` lines 86-95): re-scatter the
group-1 basis, accumulating the element at original position `j` into new
position `indices[j]`. -/
def index_by [AddCommMonoid G1] (ck : CommitterKey G1 G2) (indices : List Nat) :
    CommitterKey G1 G2 :=
  { powers_of_g := scatterAdd (indices.zip ck.powers_of_g)
      (List.replicate ck.powers_of_g.length 0)
    powers_of_g2 := ck.powers_of_g2 }

/-- The quotient loop of `CommitterKey::open` (`src/kzg/time.rs` lines
117-124): iterating the coefficients from highest to lowest degree, each new
coefficient is `c + previous * z` and is pushed at the front of the quotient
vector; `previous` is the front of the vector built so far (zero at the
start). -/
def horner (z : F) : List F → List F
  | [] => []
  | c :: cs =>
    let q := horner z cs
    (c + q.headD 0 * z) :: q

/-- `CommitterKey::open` (`src/kzg/time.rs` lines 112-131); named `openAt`
because `open` is reserved in Lean.  The first entry of the Horner vector is
split off as the claimed evaluation (defaulting to zero on an empty vector,
`split_first().unwrap_or(...)`), the rest is committed as the proof. -/
def openAt [AddCommMonoid G1] [SMul F G1] (ck : CommitterKey G1 G2)
    (polynomial : List F) (evaluation_point : F) : F × EvaluationProof G1 :=
  match horner evaluation_point polynomial with
  | [] => (0, ⟨msm_unchecked ck.powers_of_g ([] : List F)⟩)
  | e :: quotient => (e, ⟨msm_unchecked ck.powers_of_g quotient⟩)

end CommitterKey

end Kzg

section PolyDiv

variable {F : Type} [Field F] [DecidableEq F]

/-- Trailing-zero trimming of a little-endian coefficient vector: the
semantics of `DensePolynomial::from_coefficients_slice`, which drops
zero coefficients at the leading (highest-degree) end. -/
def trimP (p : List F) : List F :=
  ((p.reverse).dropWhile (fun c => c = 0)).reverse

/-- Long-division loop on big-endian coefficient vectors, dividing by the
divisor with leading-coefficient inverse `lcInv` and remaining (big-endian)
coefficients `t`: the semantics of arkworks
`DenseOrSparsePolynomial::divide_with_q_and_r`, quotient only (the remainder
is discarded by `DensePolynomial::div`). -/
def divBE (lcInv : F) (t : List F) : List F → List F
  | [] => []
  | c :: fs =>
    if fs.length < t.length then []
    else
      let q := c * lcInv
      q :: divBE lcInv t
        (List.zipWith (fun a b => a - q * b) fs (t ++ List.replicate (fs.length - t.length) 0))
  termination_by f => f.length
  decreasing_by simp [List.length_zipWith]

/-- Polynomial division, quotient only, on little-endian coefficient
vectors: the semantics of `DensePolynomial::div` as used by
`open_multi_points`. -/
def polyDiv (f z : List F) : List F :=
  match (trimP z).reverse with
  | [] => []
  | lc :: t => (divBE lc⁻¹ t (trimP f).reverse).reverse

namespace CommitterKey

/-- `CommitterKey::open_multi_points` (`src/kzg/time.rs` lines 134-145):
divide the polynomial by the vanishing polynomial of the point set, discard
the remainder, and commit to the quotient. -/
def open_multi_points {G1 G2 : Type} [AddCommMonoid G1] [SMul F G1]
    (ck : CommitterKey G1 G2) (polynomial : List F) (eval_points : List F) :
    EvaluationProof G1 :=
  let z_poly := vanishing_polynomial eval_points
  let q_poly := polyDiv polynomial z_poly
  ⟨(ck.commit q_poly).val⟩

/-- `CommitterKey::batch_open_multi_points` (`src/kzg/time.rs` lines
149-159): weight the polynomials by the consecutive powers of the batching
challenge, sum them coefficientwise, and delegate to `open_multi_points`.
(The Rust code first asserts `eval_points.len() < powers_of_g2.len()`; the
assertion's hypothesis is carried by the theorems below.) -/
def batch_open_multi_points {G1 G2 : Type} [AddCommMonoid G1] [SMul F G1]
    (ck : CommitterKey G1 G2) (polynomials : List (List F)) (eval_points : List F)
    (eval_chal : F) : EvaluationProof G1 :=
  let etas := powers eval_chal polynomials.length
  let batched_polynomial := linear_combination polynomials etas
  ck.open_multi_points batched_polynomial eval_points

end CommitterKey

end PolyDiv

section Snark

variable {F C M V SE TE : Type} [CommRing F]

/-- One operation on the Fiat-Shamir transcript.  Modelled from the spec:
the merlin transcript is an external collaborator (spec §6); each challenge
is "a deterministic, domain-separated pseudorandom function of everything
previously appended", and squeezing a challenge itself advances the sponge
state, recorded here as a `chalReq` event.  `dom` is the initial
domain-separation binding to `PROTOCOL_NAME`. -/
inductive TEntry (F C : Type) where
  | dom : TEntry F C
  | scalar : String → F → TEntry F C
  | comm : String → C → TEntry F C
  | chalReq : String → TEntry F C
  deriving DecidableEq

/-- The tensor-consistency sub-proof carried inside a `Proof` (its type lives
in the tensorcheck module, which is not part of the provided sources); the
verifier reads its `folded_polynomials_commitments` and
`base_polynomials_evaluations` fields (`src/snark/verifier.rs` lines 50-53,
83, 86, 89). -/
structure TensorcheckProof (F C : Type) where
  folded_polynomials_commitments : List C
  base_polynomials_evaluations : List (List F)
  deriving DecidableEq

/-- `Proof` (`src/snark`): the argument payload consumed by
`Proof::verify`.  The sumcheck round messages are opaque values of type `M`
consumed by the subclaim capability. -/
structure Proof (F C M : Type) where
  witness_commitment : C
  zc_alpha : F
  first_sumcheck_msgs : List M
  second_sumcheck_msgs : List M
  tensorcheck_proof : TensorcheckProof F C
  deriving DecidableEq

/-- `R1cs` (`src/circuit`, not part of the provided sources): three
constraint matrices given as lists of rows, and the public input vector
`x`; modelled from the spec (§3, §6). -/
structure R1cs (F : Type) where
  a : List (List F)
  b : List (List F)
  c : List (List F)
  x : List F
  deriving DecidableEq

/-- Modelled from the spec: `VerificationError` (`src/lib.rs` is not part of
the provided sources) is the single generic invalid-proof error value; the
public result carries no other information (spec §7: "one generic invalid
proof result with no distinguishing detail exposed to the caller"). -/
inductive VerificationError where
  | invalidProof
  deriving DecidableEq

/-- The per-run data of `Proof::verify` that the claims talk about: the four
Fiat-Shamir challenges, the transcript states from which `gamma` and `beta`
are squeezed, and the final tensor-consistency result. -/
structure RunInfo (F C TE : Type) where
  alpha : F
  eta : F
  gamma : F
  beta : F
  gammaInput : List (TEntry F C)
  betaInput : List (TEntry F C)
  tcResult : Except TE Unit

/-- `z_pos` of `Proof::verify` (`src/snark/verifier.rs` lines 81-83): the
public input evaluated at `beta`, plus `beta ^ len(x)` times the witness
evaluation reported by the tensor-consistency sub-proof. -/
def zPos (x : List F) (beta ev : F) : F :=
  evaluate_le x beta + beta ^ x.length * ev

/-- `z_neg` of `Proof::verify` (`src/snark/verifier.rs` lines 84-90): as
`zPos` but at `-beta`, the witness term being added when `len(x) & 1 == 0`
and subtracted otherwise. -/
def zNeg (x : List F) (beta ev : F) : F :=
  if x.length &&& 1 = 0 then
    evaluate_le x (-beta) + beta ^ x.length * ev
  else
    evaluate_le x (-beta) - beta ^ x.length * ev

/-- The transcript interactions of `Proof::verify` up to and including the
second sumcheck (`src/snark/verifier.rs` lines 19-46): transcript creation,
witness-commitment append, `alpha`, the claimed `zc(alpha)` append, subclaim
one, `eta`, the asserted sum for round two, subclaim two.  The subclaim
capability `sub` (spec §6) receives the transcript state, the round
messages, and the asserted sum; on success it returns the advanced
transcript state together with the final foldings and the per-round
challenges.  Returns the transcript state after subclaim two, `alpha`,
`eta`, the first subclaim challenges, and the second subclaim foldings and
challenges. -/
def stage2
    (chal : List (TEntry F C) → String → F)
    (sub : List (TEntry F C) → List M → F →
      Except SE (List (TEntry F C) × List (List F) × List F))
    (p : Proof F C M) :
    Except VerificationError
      (List (TEntry F C) × F × F × List F × List (List F) × List F) :=
  let t1 : List (TEntry F C) := [TEntry.dom, TEntry.comm "witness" p.witness_commitment]
  let alpha := chal t1 "alpha"
  let t3 := t1 ++ [TEntry.chalReq "alpha", TEntry.scalar "zc(alpha)" p.zc_alpha]
  match sub t3 p.first_sumcheck_msgs p.zc_alpha with
  | .error _ => .error VerificationError.invalidProof
  | .ok (t4, foldings1, challenges1) =>
    let eta := chal t4 "eta"
    let t5 := t4 ++ [TEntry.chalReq "eta"]
    let asserted_sum_2 := (foldings1.getD 0 []).getD 0 0
      + (foldings1.getD 0 []).getD 1 0 * eta
      + p.zc_alpha * (eta * eta)
    match sub t5 p.second_sumcheck_msgs asserted_sum_2 with
    | .error _ => .error VerificationError.invalidProof
    | .ok (t6, foldings2, challenges2) =>
      .ok (t6, alpha, eta, challenges1, foldings2, challenges2)

/-- `Proof::verify` (`src/snark/verifier.rs` lines 18-107), instrumented to
return the run data.  After the second sumcheck: squeeze `gamma`, append the
fold commitments of the tensorcheck sub-proof, squeeze `beta`, build the
matrix-consistency values `m_pos`/`m_neg`, the public-input values
`z_pos`/`z_neg`, the expected evaluations, and hand everything to the
tensor-consistency capability `tc` (spec §6). -/
def verifyRun
    (chal : List (TEntry F C) → String → F)
    (sub : List (TEntry F C) → List M → F →
      Except SE (List (TEntry F C) × List (List F) × List F))
    (tc : List (TEntry F C) → V → List (List F) → List C → List (List F) →
      List (List F) → F → F → Except TE Unit)
    (p : Proof F C M) (r1cs : R1cs F) (vk : V) :
    Except VerificationError (RunInfo F C TE) :=
  match stage2 chal sub p with
  | .error e => .error e
  | .ok (t6, alpha, eta, challenges1, foldings2, challenges2) =>
    let gamma := chal t6 "batch_challenge"
    let t7 := t6 ++ [TEntry.chalReq "batch_challenge"]
      ++ p.tensorcheck_proof.folded_polynomials_commitments.map (TEntry.comm "commitment")
    let beta := chal t7 "evaluation-chal"
    let t8 := t7 ++ [TEntry.chalReq "evaluation-chal"]
    let eta2 := eta * eta
    let num_constraints := r1cs.a.length
    let tensor_challenges_head := (tensor challenges1).take num_constraints
    let alpha_powers := powers alpha num_constraints
    let hadamard_randomness := hadamard tensor_challenges_head alpha_powers
    let beta_powers := powers beta num_constraints
    let minus_beta_powers := powers (-beta) num_constraints
    let m_pos := ip (product_matrix_vector r1cs.a beta_powers) hadamard_randomness
      + eta * ip (product_matrix_vector r1cs.b beta_powers) tensor_challenges_head
      + eta2 * ip (product_matrix_vector r1cs.c beta_powers) alpha_powers
    let m_neg := ip (product_matrix_vector r1cs.a minus_beta_powers) hadamard_randomness
      + eta * ip (product_matrix_vector r1cs.b minus_beta_powers) tensor_challenges_head
      + eta2 * ip (product_matrix_vector r1cs.c minus_beta_powers) alpha_powers
    let z_pos := zPos r1cs.x beta
      ((p.tensorcheck_proof.base_polynomials_evaluations.getD 0 []).getD 1 0)
    let z_neg := zNeg r1cs.x beta
      ((p.tensorcheck_proof.base_polynomials_evaluations.getD 0 []).getD 2 0)
    let direct_base_polynomials_evaluations :=
      [[m_pos + gamma * z_pos, m_neg + gamma * z_neg]]
    .ok { alpha := alpha, eta := eta, gamma := gamma, beta := beta
          gammaInput := t6, betaInput := t7
          tcResult := tc t8 vk [foldings2.getD 0 []] [p.witness_commitment]
            direct_base_polynomials_evaluations [challenges2] beta gamma }

/-- `Proof::verify` (`src/snark/verifier.rs` lines 18-107): the public
result, any tensor-consistency failure collapsed to the generic error
(`map_err` on line 106), sumcheck failures already collapsed by `stage2`. -/
def verify
    (chal : List (TEntry F C) → String → F)
    (sub : List (TEntry F C) → List M → F →
      Except SE (List (TEntry F C) × List (List F) × List F))
    (tc : List (TEntry F C) → V → List (List F) → List C → List (List F) →
      List (List F) → F → F → Except TE Unit)
    (p : Proof F C M) (r1cs : R1cs F) (vk : V) :
    Except VerificationError Unit :=
  match verifyRun chal sub tc p r1cs vk with
  | .error e => .error e
  | .ok info =>
    match info.tcResult with
    | .ok _ => .ok ()
    | .error _ => .error VerificationError.invalidProof

/-- Replace the fold commitments of a proof's tensorcheck sub-proof, keeping
every other field; used to state that the transcript at the point `gamma` is
squeezed does not depend on them. -/
def setFolds (p : Proof F C M) (cs : List C) : Proof F C M :=
  { p with tensorcheck_proof :=
      { p.tensorcheck_proof with folded_polynomials_commitments := cs } }

/-- The transcript state from which `gamma` is squeezed (empty when a
sumcheck already failed). -/
def runGammaInput
    (chal : List (TEntry F C) → String → F)
    (sub : List (TEntry F C) → List M → F →
      Except SE (List (TEntry F C) × List (List F) × List F))
    (p : Proof F C M) : List (TEntry F C) :=
  match stage2 chal sub p with
  | .ok (t6, _) => t6
  | .error _ => []

end Snark

section Lemmas

variable {F G : Type} [CommRing F]

theorem powersAux_length (t acc : F) (n : Nat) : (powersAux t acc n).length = n := by
  induction n generalizing acc with
  | zero => rfl
  | succ n ih => simp [powersAux, ih]

theorem powers_length (t : F) (n : Nat) : (powers t n).length = n :=
  powersAux_length t 1 n

theorem zip_take_right {α β : Type} (l : List α) (m : List β) :
    l.zip m = l.zip (m.take l.length) := by
  induction l generalizing m with
  | nil => rfl
  | cons a l ih =>
    cases m with
    | nil => rfl
    | cons b m => simpa [List.zip_cons_cons] using ih m

end Lemmas

section ClaimsKzgBasic

variable {F G1 G2 : Type} [CommRing F]

/-- A committer key over `F = G1 = G2 = ℚ` whose group-1 basis has two
elements; concrete instance used by witnesses and counterexamples. -/
def ckQ : CommitterKey ℚ ℚ :=
  { powers_of_g := [1, 10], powers_of_g2 := [1, 2] }

/-- C5: for every `max_degree` and `max_eval_points`, `CommitterKey::new`
returns `max_degree + 1` group-1 basis elements, but only
`min (max_eval_points + 1) (max_degree + 1)` group-2 basis elements: the
group-2 basis is obtained by `take (max_eval_points + 1)` from the
`max_degree + 1` powers of the trapdoor, so the claimed length
`max_eval_points + 1` holds only when `max_eval_points ≤ max_degree`. -/
theorem new_basis_lengths [AddCommMonoid G1] [AddCommMonoid G2] [SMul F G1] [SMul F G2]
    (d e : Nat) (tau : F) (g : G1) (g2 : G2) :
    (CommitterKey.new d e tau g g2).powers_of_g.length = d + 1 ∧
    (CommitterKey.new d e tau g g2).powers_of_g2.length = min (e + 1) (d + 1) := by
  constructor
  · simp [CommitterKey.new, powers_length]
  · simp [CommitterKey.new, powers_length, List.length_take]

/-- C5 counterexample: with `max_degree = 0` and `max_eval_points = 1`
(over `ℚ`), the group-2 basis has one element, not `max_eval_points + 1 = 2`. -/
theorem new_basis_lengths_counterexample :
    ¬ ((CommitterKey.new 0 1 (1 : ℚ) (1 : ℚ) (1 : ℚ)).powers_of_g2.length = 1 + 1) := by
  decide

/-- C2: `CommitterKey::commit` cannot fail: it is a single unchecked MSM
zipping the group-1 basis against the coefficient vector, so coefficients
beyond the basis length are silently ignored — committing a vector is the
same as committing its truncation to the basis length. -/
theorem commit_truncates [AddCommMonoid G1] [SMul F G1]
    (ck : CommitterKey G1 G2) (p : List F) :
    ck.commit p = ck.commit (p.take ck.powers_of_g.length) := by
  unfold CommitterKey.commit msm_unchecked
  rw [zip_take_right]

/-- C2 counterexample: over `ℚ`, with a basis of length two, committing the
three-coefficient vector `[2, 3, 5]` silently returns the commitment of the
truncated vector `[2, 3]` (no degree-bound error exists: `commit` is total),
contradicting "commit fails with an explicit degree-bound error; it never
silently computes a commitment against a truncated or mismatched basis". -/
theorem commit_truncates_counterexample :
    ckQ.powers_of_g.length < ([2, 3, 5] : List ℚ).length ∧
    CommitterKey.commit ckQ [2, 3, 5] = CommitterKey.commit ckQ [2, 3] ∧
    (5 : ℚ) ≠ 0 := by
  refine ⟨by decide, ?_, by norm_num⟩
  simp only [CommitterKey.commit, msm_unchecked, ckQ]
  norm_num [List.zip_cons_cons, smul_eq_mul]

/-- C10: opening the empty coefficient vector does not go wrong: the
`split_first` of the empty quotient falls back to evaluation zero and an
empty quotient, whose MSM is the group identity. -/
theorem openAt_nil [AddCommMonoid G1] [SMul F G1]
    (ck : CommitterKey G1 G2) (z : F) :
    ck.openAt ([] : List F) z = (0, ⟨0⟩) := by
  simp [CommitterKey.openAt, CommitterKey.horner, msm_unchecked, List.zip_nil_right]

end ClaimsKzgBasic

section ClaimsVerifier

variable {F C M V SE TE : Type} [CommRing F]

/-- C4: the public-input consistency value for the `−β` point computed by
`Proof::verify` equals the public input evaluated (little-endian) at `−β`
plus `β^p` times the witness evaluation from the tensor-consistency
sub-proof when the public-input length `p` is even, and minus that term
when `p` is odd. -/
theorem zNeg_parity (x : List F) (beta ev : F) :
    (Even x.length → zNeg x beta ev = evaluate_le x (-beta) + beta ^ x.length * ev) ∧
    (Odd x.length → zNeg x beta ev = evaluate_le x (-beta) - beta ^ x.length * ev) := by
  constructor
  · intro h
    rw [zNeg, if_pos]
    rw [Nat.and_one_is_mod]
    exact Nat.even_iff.mp h
  · intro h
    rw [zNeg, if_neg]
    rw [Nat.and_one_is_mod, Nat.odd_iff.mp h]
    exact one_ne_zero

/-- Witness for C4: a public input of even length 2 takes the plus sign, one
of odd length 3 takes the minus sign. -/
theorem zNeg_parity_witness :
    (zNeg ([1, 2] : List ℚ) 3 5 = evaluate_le [1, 2] (-3) + 3 ^ ([1, 2] : List ℚ).length * 5) ∧
    (zNeg ([1, 2, 4] : List ℚ) 3 5
      = evaluate_le [1, 2, 4] (-3) - 3 ^ ([1, 2, 4] : List ℚ).length * 5) :=
  ⟨(zNeg_parity [1, 2] 3 5).1 (by decide), (zNeg_parity [1, 2, 4] 3 5).2 (by decide)⟩

/-- C8: the public result of `Proof::verify` carries no information about
which check failed: whatever the subclaim and tensor-consistency
capabilities do, the result is either acceptance or the one generic
invalid-proof error value — both sumcheck failures and the final
tensor-consistency failure collapse to `VerificationError.invalidProof`. -/
theorem verify_error_opaque
    (chal : List (TEntry F C) → String → F)
    (sub : List (TEntry F C) → List M → F →
      Except SE (List (TEntry F C) × List (List F) × List F))
    (tc : List (TEntry F C) → V → List (List F) → List C → List (List F) →
      List (List F) → F → F → Except TE Unit)
    (p : Proof F C M) (r1cs : R1cs F) (vk : V) :
    verify chal sub tc p r1cs vk = .ok () ∨
    verify chal sub tc p r1cs vk = .error VerificationError.invalidProof := by
  cases h : verify chal sub tc p r1cs vk with
  | ok u => cases u; exact Or.inl rfl
  | error e => cases e; exact Or.inr rfl

/-- C9: `Proof::verify` is deterministic: over identical proof, R1CS
instance and verifier key (and the same deterministic transcript/capability
functions), two runs produce identical run data — in particular the same
challenge sequence `(alpha, eta, gamma, beta)`, carried by the `RunInfo` —
and the identical accept/reject result. -/
theorem verify_deterministic
    (chal : List (TEntry F C) → String → F)
    (sub : List (TEntry F C) → List M → F →
      Except SE (List (TEntry F C) × List (List F) × List F))
    (tc : List (TEntry F C) → V → List (List F) → List C → List (List F) →
      List (List F) → F → F → Except TE Unit)
    (p1 p2 : Proof F C M) (r1 r2 : R1cs F) (vk1 vk2 : V)
    (hp : p1 = p2) (hr : r1 = r2) (hv : vk1 = vk2) :
    verifyRun chal sub tc p1 r1 vk1 = verifyRun chal sub tc p2 r2 vk2 ∧
    verify chal sub tc p1 r1 vk1 = verify chal sub tc p2 r2 vk2 := by
  subst hp; subst hr; subst hv
  exact ⟨rfl, rfl⟩

end ClaimsVerifier

section ConcreteRun

/-- A concrete deterministic challenge oracle over `F = C = ℤ`: the number
of transcript operations so far. -/
def chalC : List (TEntry ℤ ℤ) → String → ℤ :=
  fun t _ => (t.length : ℤ)

/-- A concrete subclaim capability: always succeeds, advancing the
transcript by one event and returning fixed foldings and challenges. -/
def subC : List (TEntry ℤ ℤ) → List ℤ → ℤ →
    Except Unit (List (TEntry ℤ ℤ) × List (List ℤ) × List ℤ) :=
  fun t _ _ => .ok (t ++ [TEntry.chalReq "sub"], [[1, 2]], [3])

/-- A concrete tensor-consistency capability: always accepts. -/
def tcC : List (TEntry ℤ ℤ) → Unit → List (List ℤ) → List ℤ → List (List ℤ) →
    List (List ℤ) → ℤ → ℤ → Except Unit Unit :=
  fun _ _ _ _ _ _ _ _ => .ok ()

/-- A concrete proof whose tensorcheck sub-proof carries the single fold
commitment `99`. -/
def pC : Proof ℤ ℤ ℤ :=
  { witness_commitment := 5
    zc_alpha := 7
    first_sumcheck_msgs := []
    second_sumcheck_msgs := []
    tensorcheck_proof :=
      { folded_polynomials_commitments := [99]
        base_polynomials_evaluations := [[11, 12, 13]] } }

/-- A concrete (empty) R1CS instance. -/
def rC : R1cs ℤ :=
  { a := [], b := [], c := [], x := [] }

/-- The transcript state of the concrete run at the moment `gamma` is
squeezed: everything up to and including the second sumcheck. -/
def t6C : List (TEntry ℤ ℤ) :=
  [TEntry.dom, TEntry.comm "witness" 5, TEntry.chalReq "alpha",
   TEntry.scalar "zc(alpha)" 7, TEntry.chalReq "sub", TEntry.chalReq "eta",
   TEntry.chalReq "sub"]

/-- The run data of the concrete verification run. -/
def infoC : RunInfo ℤ ℤ Unit :=
  { alpha := 2, eta := 5, gamma := 7, beta := 9
    gammaInput := t6C
    betaInput := t6C ++ [TEntry.chalReq "batch_challenge"] ++ [TEntry.comm "commitment" 99]
    tcResult := .ok () }

end ConcreteRun

section ClaimC1

variable {F C M V SE TE : Type} [CommRing F]

/-- C1 (amended): in `Proof::verify`, the batching challenge `gamma` is
squeezed from the transcript state reached right after sumcheck #2 — before
the fold commitments of the tensor-consistency sub-proof are appended — and
only the evaluation challenge `beta` is squeezed from a transcript that has
absorbed those fold commitments: the `beta` input is exactly the `gamma`
input followed by the `gamma` squeeze event and the fold-commitment
appends, and the `gamma` input is independent of the fold commitments. -/
theorem gamma_before_folds_beta_after
    (chal : List (TEntry F C) → String → F)
    (sub : List (TEntry F C) → List M → F →
      Except SE (List (TEntry F C) × List (List F) × List F))
    (tc : List (TEntry F C) → V → List (List F) → List C → List (List F) →
      List (List F) → F → F → Except TE Unit)
    (p : Proof F C M) (r1cs : R1cs F) (vk : V) (info : RunInfo F C TE)
    (h : verifyRun chal sub tc p r1cs vk = .ok info) :
    info.betaInput = info.gammaInput ++ [TEntry.chalReq "batch_challenge"]
        ++ p.tensorcheck_proof.folded_polynomials_commitments.map (TEntry.comm "commitment")
    ∧ info.gamma = chal info.gammaInput "batch_challenge"
    ∧ info.beta = chal info.betaInput "evaluation-chal"
    ∧ info.gammaInput = runGammaInput chal sub p
    ∧ (∀ cs, runGammaInput chal sub (setFolds p cs) = runGammaInput chal sub p) := by
  unfold verifyRun at h
  cases hs : stage2 chal sub p with
  | error e => rw [hs] at h; exact absurd h (by simp)
  | ok tup =>
    obtain ⟨t6, alpha, eta, ch1, f2, ch2⟩ := tup
    rw [hs] at h
    simp only [Except.ok.injEq] at h
    subst h
    refine ⟨rfl, rfl, rfl, ?_, fun cs => rfl⟩
    unfold runGammaInput
    rw [hs]

/-- Witness for C1: the concrete run over `chalC`/`subC`/`tcC` and the
concrete proof `pC`, whose run data is `infoC`. -/
theorem gamma_before_folds_beta_after_witness :
    infoC.betaInput = infoC.gammaInput ++ [TEntry.chalReq "batch_challenge"]
        ++ pC.tensorcheck_proof.folded_polynomials_commitments.map (TEntry.comm "commitment")
    ∧ infoC.gamma = chalC infoC.gammaInput "batch_challenge"
    ∧ infoC.beta = chalC infoC.betaInput "evaluation-chal"
    ∧ infoC.gammaInput = runGammaInput chalC subC pC
    ∧ (∀ cs, runGammaInput chalC subC (setFolds pC cs) = runGammaInput chalC subC pC) :=
  gamma_before_folds_beta_after chalC subC tcC pC rC () infoC (by rfl)

/-- C1 counterexample: in the concrete run, the fold commitment `99` of the
tensor-consistency sub-proof has been absorbed by the transcript from which
`beta` is squeezed, but is absent from the transcript from which `gamma` is
squeezed — so `gamma` is not derived from a transcript that has already
absorbed the fold commitments. -/
theorem gamma_absorbs_folds_counterexample :
    verifyRun chalC subC tcC pC rC () = .ok infoC
    ∧ pC.tensorcheck_proof.folded_polynomials_commitments = [99]
    ∧ TEntry.comm "commitment" (99 : ℤ) ∈ infoC.betaInput
    ∧ ¬ TEntry.comm "commitment" (99 : ℤ) ∈ infoC.gammaInput := by
  refine ⟨rfl, rfl, by decide, by decide⟩

end ClaimC1

section ClaimC9Witness

/-- Witness for C9: the concrete run, twice, with definitionally equal
inputs. -/
theorem verify_deterministic_witness :
    verifyRun chalC subC tcC pC rC () = verifyRun chalC subC tcC pC rC () ∧
    verify chalC subC tcC pC rC () = verify chalC subC tcC pC rC () :=
  verify_deterministic chalC subC tcC pC pC rC rC () () rfl rfl rfl

end ClaimC9Witness

section ClaimC6

variable {F G1 G2 : Type} [CommRing F]

theorem headD_eq_getD (l : List F) : l.headD 0 = l.getD 0 0 := by
  cases l <;> rfl

theorem evaluate_le_head_tail (l : List F) (x : F) :
    evaluate_le l x = l.headD 0 + x * evaluate_le l.tail x := by
  cases l with
  | nil => simp [evaluate_le]
  | cons c cs => rfl

theorem horner_headD (z : F) (p : List F) :
    (CommitterKey.horner z p).headD 0 = evaluate_le p z := by
  induction p with
  | nil => rfl
  | cons c cs ih =>
    show c + (CommitterKey.horner z cs).headD 0 * z = evaluate_le (c :: cs) z
    rw [ih]
    show _ = c + z * evaluate_le cs z
    ring

theorem horner_remainder (z : F) (p : List F) (x : F) :
    evaluate_le p x
      = (x - z) * evaluate_le (CommitterKey.horner z p).tail x + evaluate_le p z := by
  induction p with
  | nil => simp [evaluate_le, CommitterKey.horner]
  | cons c cs ih =>
    show c + x * evaluate_le cs x
      = (x - z) * evaluate_le (CommitterKey.horner z cs) x + evaluate_le (c :: cs) z
    rw [evaluate_le_head_tail (CommitterKey.horner z cs) x, horner_headD]
    show _ = (x - z) * (evaluate_le cs z + x * evaluate_le (CommitterKey.horner z cs).tail x)
      + (c + z * evaluate_le cs z)
    have hcs := ih
    rw [hcs]
    ring

theorem horner_getD (z : F) (p : List F) (i : Nat) :
    (CommitterKey.horner z p).getD i 0
      = p.getD i 0 + (CommitterKey.horner z p).getD (i + 1) 0 * z := by
  induction p generalizing i with
  | nil => simp [CommitterKey.horner]
  | cons c cs ih =>
    cases i with
    | zero =>
      show c + (CommitterKey.horner z cs).headD 0 * z
        = c + (CommitterKey.horner z cs).getD 0 0 * z
      rw [headD_eq_getD]
    | succ i =>
      show (CommitterKey.horner z cs).getD i 0
        = cs.getD i 0 + (CommitterKey.horner z cs).getD (i + 1) 0 * z
      exact ih i

/-- C6: `CommitterKey::open` returns as first component the evaluation of
the polynomial at the point; the quotient vector it commits as the proof is
given by the stated Horner recurrence (each quotient entry is the matching
polynomial coefficient plus `z` times the next quotient entry, the front
entry being the evaluation), and it is the true quotient of division by
`X − z` with remainder the evaluation:
`p(x) = (x − z) * q(x) + p(z)` for every `x`. -/
theorem openAt_spec [AddCommMonoid G1] [SMul F G1]
    (ck : CommitterKey G1 G2) (p : List F) (z : F) :
    (ck.openAt p z).1 = evaluate_le p z
    ∧ (ck.openAt p z).2
        = ⟨msm_unchecked ck.powers_of_g (CommitterKey.horner z p).tail⟩
    ∧ (∀ i, (CommitterKey.horner z p).getD i 0
        = p.getD i 0 + (CommitterKey.horner z p).getD (i + 1) 0 * z)
    ∧ (∀ x, evaluate_le p x
        = (x - z) * evaluate_le (CommitterKey.horner z p).tail x + evaluate_le p z) := by
  refine ⟨?_, ?_, horner_getD z p, horner_remainder z p⟩
  · rw [← horner_headD z p]
    unfold CommitterKey.openAt
    cases CommitterKey.horner z p <;> rfl
  · unfold CommitterKey.openAt
    cases CommitterKey.horner z p <;> rfl

end ClaimC6

section ClaimC7

variable {F : Type} [Field F] [DecidableEq F] {G1 G2 : Type}

/-- The explicit coefficientwise weighted sum `Σ ηⁱ·pᵢ` named by the claim
(spec §8: "the explicit weighted sum Σ ηⁱ·pᵢ"), written independently of
`linear_combination`: a fold over the polynomial indices, weighting the
`i`-th polynomial by `η ^ i`. -/
def specWeightedSum (ps : List (List F)) (eta : F) : List F :=
  (List.range ps.length).foldr
    (fun i acc => polyAdd ((ps.getD i []).map (fun x => eta ^ i * x)) acc) []

theorem linear_combination_powersAux (eta : F) (ps : List (List F)) (acc : F) :
    linear_combination ps (powersAux eta acc ps.length)
      = (List.range ps.length).foldr
          (fun i a => polyAdd ((ps.getD i []).map (fun x => acc * (eta ^ i * x))) a) [] := by
  induction ps generalizing acc with
  | nil => rfl
  | cons p ps ih =>
    have hpow : ∀ i : Nat, (fun x : F => acc * eta * (eta ^ i * x))
        = (fun x : F => acc * (eta ^ (i + 1) * x)) := by
      intro i; funext x; rw [pow_succ]; ring
    show polyAdd (p.map (fun x => acc * x))
        (linear_combination ps (powersAux eta (acc * eta) ps.length)) = _
    rw [ih (acc * eta)]
    simp only [List.length_cons]
    rw [List.range_succ_eq_map, List.foldr_cons, List.foldr_map]
    congr 1
    · simp
    · congr 1
      funext i a
      rw [List.getD_cons_succ, hpow i]

theorem linear_combination_powers (eta : F) (ps : List (List F)) :
    linear_combination ps (powers eta ps.length) = specWeightedSum ps eta := by
  rw [powers, linear_combination_powersAux, specWeightedSum]
  congr 1
  funext i a
  simp

/-- C7: `batch_open_multi_points` on polynomials `p₀..pₙ` with challenge
`η`, the point set being within the key's bound (the Rust assertion), yields
the very proof `open_multi_points` yields on the explicit coefficientwise
weighted sum `Σ ηⁱ·pᵢ`, the weights being the consecutive powers of `η`
starting at 1. -/
theorem batch_open_multi_points_eq [AddCommMonoid G1] [SMul F G1]
    (ck : CommitterKey G1 G2) (polys : List (List F)) (pts : List F) (eta : F)
    (h : pts.length < ck.powers_of_g2.length) :
    ck.batch_open_multi_points polys pts eta
      = ck.open_multi_points (specWeightedSum polys eta) pts := by
  show ck.open_multi_points (linear_combination polys (powers eta polys.length)) pts = _
  rw [linear_combination_powers]

/-- Witness for C7: a concrete batched opening of two polynomials over `ℚ`
at one point, within the key's bound of two. -/
theorem batch_open_multi_points_eq_witness :
    ([5] : List ℚ).length < ckQ.powers_of_g2.length ∧
    ckQ.batch_open_multi_points ([[1, 2], [3]] : List (List ℚ)) [5] 7
      = ckQ.open_multi_points (specWeightedSum ([[1, 2], [3]] : List (List ℚ)) 7) [5] :=
  ⟨by decide, batch_open_multi_points_eq ckQ ([[1, 2], [3]] : List (List ℚ)) [5] 7 (by decide)⟩

end ClaimC7

section ClaimC3

variable {F G1 G2 : Type} [AddCommMonoid G1]

theorem getD_set_self (l : List G1) (k : Nat) (v d : G1) (h : k < l.length) :
    (l.set k v).getD k d = v := by
  induction l generalizing k with
  | nil => simp at h
  | cons a l ih =>
    cases k with
    | zero => rfl
    | succ k => exact ih k (by simpa using h)

theorem getD_set_other (l : List G1) (i k : Nat) (v d : G1) (h : i ≠ k) :
    (l.set i v).getD k d = l.getD k d := by
  induction l generalizing i k with
  | nil => rfl
  | cons a l ih =>
    cases i with
    | zero =>
      cases k with
      | zero => exact absurd rfl h
      | succ k => rfl
    | succ i =>
      cases k with
      | zero => rfl
      | succ k => exact ih i k (fun hik => h (by rw [hik]))

theorem getD_replicate (n k : Nat) (z : G1) : (List.replicate n z).getD k z = z := by
  induction n generalizing k with
  | zero => rfl
  | succ n ih =>
    cases k with
    | zero => rfl
    | succ k => exact ih k

theorem scatterAdd_cons (ig : Nat × G1) (rest : List (Nat × G1)) (init : List G1) :
    CommitterKey.scatterAdd (ig :: rest) init
      = CommitterKey.scatterAdd rest (init.set ig.1 (init.getD ig.1 0 + ig.2)) := rfl

theorem scatterAdd_length (pairs : List (Nat × G1)) (init : List G1) :
    (CommitterKey.scatterAdd pairs init).length = init.length := by
  induction pairs generalizing init with
  | nil => rfl
  | cons ig rest ih =>
    rw [scatterAdd_cons, ih, List.length_set]

theorem scatterAdd_getD (pairs : List (Nat × G1)) :
    ∀ (init : List G1) (k : Nat), k < init.length →
      (CommitterKey.scatterAdd pairs init).getD k 0
        = init.getD k 0 + ((pairs.filter (fun ig => ig.1 = k)).map Prod.snd).sum := by
  induction pairs with
  | nil => intro init k hk; simp [CommitterKey.scatterAdd]
  | cons ig rest ih =>
    intro init k hk
    rw [scatterAdd_cons]
    have hlen : (init.set ig.1 (init.getD ig.1 0 + ig.2)).length = init.length :=
      List.length_set init ig.1 _
    rw [ih _ k (by rw [hlen]; exact hk)]
    by_cases hik : ig.1 = k
    · subst hik
      rw [getD_set_self init ig.1 _ 0 (by omega)]
      simp [List.filter_cons, add_assoc]
    · rw [getD_set_other init ig.1 k _ 0 hik]
      simp [List.filter_cons, hik]

theorem filter_zip_not_mem (a : Nat) (l : List Nat) (m : List G1) (h : a ∉ l) :
    (l.zip m).filter (fun ig => ig.1 = a) = [] := by
  induction l generalizing m with
  | nil => rfl
  | cons b l ih =>
    cases m with
    | nil => rfl
    | cons g m =>
      have hba : b ≠ a := fun hba => h (hba ▸ List.mem_cons_self b l)
      have hal : a ∉ l := fun hal => h (List.mem_cons_of_mem b hal)
      simp only [List.zip_cons_cons, List.filter_cons]
      rw [if_neg (by simpa using hba)]
      exact ih m hal

theorem filter_zip_nodup (l : List Nat) (m : List G1) (h : l.Nodup) :
    ∀ j, j < l.length → j < m.length →
      ((l.zip m).filter (fun ig => ig.1 = l.getD j 0)).map Prod.snd = [m.getD j 0] := by
  induction l generalizing m with
  | nil => intro j hj; simp at hj
  | cons b l ih =>
    intro j hj hm
    cases m with
    | nil => simp at hm
    | cons g m =>
      have hbl : b ∉ l := (List.nodup_cons.mp h).1
      have hl : l.Nodup := (List.nodup_cons.mp h).2
      cases j with
      | zero =>
        simp only [List.getD_cons_zero, List.zip_cons_cons, List.filter_cons]
        rw [if_pos (by simp)]
        rw [filter_zip_not_mem b l m hbl]
        rfl
      | succ j =>
        simp only [List.getD_cons_succ, List.zip_cons_cons, List.filter_cons]
        have hj2 : j < l.length := by simpa using hj
        have hmem : l.getD j 0 ∈ l := by
          rw [List.getD_eq_getElem l 0 hj2]
          exact List.getElem_mem hj2
        have hbne : ¬ (b = l.getD j 0) := fun hb => hbl (hb ▸ hmem)
        rw [if_neg (by simpa using hbne)]
        exact ih m hl j hj2 (by simpa using hm)

/-- C3: `CommitterKey::index_by` scatters the group-1 basis: position `k` of
the new basis holds the group-sum of every original element whose index maps
to `k` under `indices` (the zip of `indices` with the original basis,
filtered on target `k`); positions not targeted by any index hold the empty
sum, the group identity.  When `indices` is duplicate-free and in range
(a permutation), the result is an exact relabeling: the new basis at
`indices[j]` is exactly the original element at `j`, none lost or
duplicated. -/
theorem index_by_spec (ck : CommitterKey G1 G2) (indices : List Nat) :
    (∀ k, k < ck.powers_of_g.length →
      (ck.index_by indices).powers_of_g.getD k 0
        = (((indices.zip ck.powers_of_g).filter (fun ig => ig.1 = k)).map Prod.snd).sum)
    ∧ (indices.Nodup → indices.length = ck.powers_of_g.length →
        (∀ i ∈ indices, i < ck.powers_of_g.length) →
        ∀ j, j < indices.length →
          (ck.index_by indices).powers_of_g.getD (indices.getD j 0) 0
            = ck.powers_of_g.getD j 0) := by
  have hmain : ∀ k, k < ck.powers_of_g.length →
      (ck.index_by indices).powers_of_g.getD k 0
        = (((indices.zip ck.powers_of_g).filter (fun ig => ig.1 = k)).map Prod.snd).sum := by
    intro k hk
    show (CommitterKey.scatterAdd (indices.zip ck.powers_of_g)
        (List.replicate ck.powers_of_g.length 0)).getD k 0 = _
    rw [scatterAdd_getD (indices.zip ck.powers_of_g)
        (List.replicate ck.powers_of_g.length 0) k (by simpa using hk)]
    rw [getD_replicate, zero_add]
  refine ⟨hmain, ?_⟩
  intro hnd hlen hrange j hj
  have hk : indices.getD j 0 < ck.powers_of_g.length := by
    apply hrange
    rw [List.getD_eq_getElem indices 0 hj]
    exact List.getElem_mem hj
  rw [hmain (indices.getD j 0) hk]
  rw [filter_zip_nodup indices ck.powers_of_g hnd j hj (by omega)]
  simp

/-- Witness for C3: the permutation `[1, 0]` applied to the two-element
basis of `ckQ` swaps the basis elements; position `0` of the scattered basis
is the filtered sum, and position `indices[0] = 1` holds the original
element `0`. -/
theorem index_by_spec_witness :
    (ckQ.index_by [1, 0]).powers_of_g.getD 0 0
      = (((([1, 0] : List Nat).zip ckQ.powers_of_g).filter
          (fun ig => ig.1 = 0)).map Prod.snd).sum
    ∧ (ckQ.index_by [1, 0]).powers_of_g.getD (([1, 0] : List Nat).getD 0 0) 0
      = ckQ.powers_of_g.getD 0 0 :=
  ⟨(index_by_spec ckQ [1, 0]).1 0 (by decide),
   (index_by_spec ckQ [1, 0]).2 (by decide) (by decide) (by decide) 0 (by decide)⟩

end ClaimC3

end Gemini
